import Mathlib

/-!
Shallow embedding of `src/stock_agent.py` (class `StockInfoAgent`).

The agent's tool-dispatch loop (`process_user_query`), tool executor
(`execute_tool`) and the yfinance-backed handlers (`get_stock_price`,
`get_company_ceo`) are translated into pure Lean functions.  External
collaborators (the OpenAI chat endpoint and the yfinance market-data
provider) are parameters: the model is a script of responses, the
provider a function returning either data or a failure.
-/

namespace StockAgent

/-- A Python value as handled by the agent's tools (handler results are
strings or numbers; `None` is represented by `Option.none` outside). -/
inductive PyVal where
  | str (s : String)
  | int (n : Int)
deriving DecidableEq

/-- Python `str(...)` coercion on the values we model. -/
def pyToString : PyVal → String
  | .str s => s
  | .int n => toString n

/-- One entry of `response_message.tool_calls`: provider-assigned id,
function name, and the parsed JSON argument object (insertion-ordered). -/
structure ToolCall where
  id : String
  name : String
  args : List (String × PyVal)
deriving DecidableEq

/-- One OpenAI chat completion message as consumed by the loop:
`content` and the (possibly empty) list of tool calls. -/
structure ModelResponse where
  content : Option String
  tool_calls : List ToolCall
deriving DecidableEq

/-- One entry of `self.conversation_history`. -/
inductive Msg where
  | user (content : String)
  | assistant (content : Option String) (tool_calls : List ToolCall)
  | tool (tool_call_id : String) (name : String) (content : String)
deriving DecidableEq

/-- A resolved capability handler.  `call0` is the result of invoking it
with no argument (`func()`), `call1 v` the result of `func(v)`. -/
structure Handler where
  call0 : Option PyVal
  call1 : PyVal → Option PyVal

/-- `StockInfoAgent.execute_tool`: resolve the tool by name
(`getattr(self, tool_name, None)` plus the `callable` check, abstracted
as `resolve`); on failure return `None`; otherwise call the handler with
the first argument value, or with no argument if the mapping is empty. -/
def execute_tool (resolve : String → Option Handler) (tool_name : String)
    (arguments : List (String × PyVal)) : Option PyVal :=
  match resolve tool_name with
  | none => none
  | some f =>
    match arguments with
    | [] => f.call0
    | (_, v) :: _ => f.call1 v

/-- The content stored in the tool-result message:
`str(result) if result is not None else "No result found"`. -/
def recordContent : Option PyVal → String
  | none => "No result found"
  | some v => pyToString v

/-- The `while True` loop of `StockInfoAgent.process_user_query`, driven
by a script of model responses (one per iteration, i.e. per chat
completion call).  Returns the final answer, the conversation history,
and the number of iterations; `none` if the script is exhausted before a
response without tool calls arrives. -/
def dispatchLoop (resolve : String → Option Handler) :
    List ModelResponse → List Msg → Option (Option String × List Msg × Nat)
  | [], _ => none
  | ⟨c, []⟩ :: _, hist => some (c, hist ++ [Msg.assistant c []], 1)
  | ⟨_, tc :: _⟩ :: rest, hist =>
    match dispatchLoop resolve rest
        (hist ++ [Msg.assistant none [tc],
          Msg.tool tc.id tc.name (recordContent (execute_tool resolve tc.name tc.args))]) with
    | some (a, h, n) => some (a, h, n + 1)
    | none => none

/-- `StockInfoAgent.process_user_query`: append the user message to the
history, then run the dispatch loop. -/
def process_user_query (resolve : String → Option Handler)
    (script : List ModelResponse) (hist0 : List Msg) (q : String) :
    Option (Option String × List Msg × Nat) :=
  dispatchLoop resolve script (hist0 ++ [Msg.user q])

/-- The two messages one tool-call iteration appends to the history
(an empty list for a response without tool calls). -/
def iterBlock (resolve : String → Option Handler) (r : ModelResponse) : List Msg :=
  match r.tool_calls with
  | [] => []
  | tc :: _ => [Msg.assistant none [tc],
      Msg.tool tc.id tc.name (recordContent (execute_tool resolve tc.name tc.args))]

/-- Concatenation of the messages appended by a list of processed
tool-call iterations. -/
def blocksOf (resolve : String → Option Handler) : List ModelResponse → List Msg
  | [] => []
  | r :: rest => iterBlock resolve r ++ blocksOf resolve rest

/-! ### The price handler `get_stock_price` -/

/-- Python truthiness-based `a or b` on optional numbers (`None` and `0`
are falsy). -/
def pyOrQ : Option ℚ → Option ℚ → Option ℚ
  | some x, b => if x = 0 then b else some x
  | none, b => b

/-- The fields of `yf.Ticker(ticker_symbol).info` read by
`get_stock_price` (prices modelled as exact rationals). -/
structure StockInfo where
  currentPrice : Option ℚ
  regularMarketPrice : Option ℚ
  currency : Option String
deriving DecidableEq

/-- The fields of the forex ticker's `.info` read by `get_stock_price`. -/
structure FxInfo where
  regularMarketPrice : Option ℚ
  previousClose : Option ℚ
  currentPrice : Option ℚ
deriving DecidableEq

/-- Python `f"\x7bx:.2f\x7d"` on an exact rational: round to two decimal
places (the hundredths count is `⌊100q + 1/2⌋`, computed on numerator and
denominator so that it evaluates by kernel reduction) and print with
exactly two fractional digits. -/
def format2 (q : ℚ) : String :=
  let c : Int := Int.fdiv (200 * q.num + (q.den : Int)) (2 * (q.den : Int))
  let n := c.natAbs
  (if c < 0 then "-" else "") ++ toString (n / 100) ++ "." ++
    (if n % 100 < 10 then "0" else "") ++ toString (n % 100)

/-- Exact division of rationals, written with `Rat.divInt` so that it
evaluates by kernel reduction; proved equal to `p / r` below. -/
def ratDiv (p r : ℚ) : ℚ := Rat.divInt (p.num * (r.den : Int)) ((p.den : Int) * r.num)

theorem ratDiv_eq (p r : ℚ) : ratDiv p r = p / r := by
  rw [ratDiv, Rat.divInt_eq_div]
  rcases eq_or_ne r 0 with h | h
  · subst h; simp
  · have hrn : (r.num : ℚ) ≠ 0 := by
      exact_mod_cast Rat.num_ne_zero.mpr h
    have hpd : ((p.den : ℚ)) ≠ 0 := by
      exact_mod_cast p.den_nz
    have hrd : ((r.den : ℚ)) ≠ 0 := by
      exact_mod_cast r.den_nz
    have hd : ((p.den * r.num : ℤ) : ℚ) ≠ 0 := by
      push_cast; exact mul_ne_zero hpd hrn
    have hp : (p.num : ℚ) = p * p.den := (div_eq_iff hpd).mp (Rat.num_div_den p)
    have hr : (r.num : ℚ) = r * r.den := (div_eq_iff hrd).mp (Rat.num_div_den r)
    rw [div_eq_div_iff hd h]
    push_cast
    rw [hp, hr]
    ring


/-- `StockInfoAgent.get_stock_price`, instrumented: besides the result it
returns the list of forex symbols looked up (for the no-conversion-call
properties).  `fetch` stands for `yf.Ticker(ticker_symbol.upper()).info`
(`Except.error` = the lookup raised), `fxFetch s` for
`yf.Ticker(s).info` of a forex symbol `s`. -/
def getStockPriceTr (fetch : Except Unit StockInfo)
    (fxFetch : String → Except Unit FxInfo) : Option String × List String :=
  match fetch with
  | .error _ => (none, [])
  | .ok info =>
    match pyOrQ info.currentPrice info.regularMarketPrice with
    | none => (none, [])
    | some p =>
      let currency := info.currency.getD "USD"
      if currency = "EUR" then (some (format2 p ++ " EUR"), [])
      else
        let forex_symbol := "EUR" ++ currency ++ "=X"
        match fxFetch forex_symbol with
        | .error _ => (some (format2 p ++ " " ++ currency), [forex_symbol])
        | .ok fxi =>
          match pyOrQ (pyOrQ fxi.regularMarketPrice fxi.previousClose) fxi.currentPrice with
          | none => (some (format2 p ++ " " ++ currency), [forex_symbol])
          | some r =>
            if r = 0 then (some (format2 p ++ " " ++ currency), [forex_symbol])
            else (some (format2 (ratDiv p r) ++ " EUR"), [forex_symbol])

/-- `StockInfoAgent.get_stock_price`: the returned value alone. -/
def get_stock_price (fetch : Except Unit StockInfo)
    (fxFetch : String → Except Unit FxInfo) : Option String :=
  (getStockPriceTr fetch fxFetch).1

/-! ### The officer handler `get_company_ceo` -/

/-- One element of an officers list: either not a `dict` (skipped by the
`isinstance` check) or a `dict` with optional `title`/`name` strings. -/
inductive OfficerEntry where
  | notDict
  | dict (title : Option String) (name : Option String)
deriving DecidableEq

/-- The value stored under an officers key: either not a `list` (skipped
by the `isinstance` check) or a list of entries. -/
inductive OfficersField where
  | notList
  | list (entries : List OfficerEntry)
deriving DecidableEq

/-- The fields of `yf.Ticker(ticker_symbol).info` read by
`get_company_ceo` (`none` = key absent; `longBusinessSummary` records
only whether the key is present). -/
structure CompanyInfo where
  companyOfficers : Option OfficersField
  officers : Option OfficersField
  longBusinessSummary : Bool
deriving DecidableEq

/-- Char-list version of Python's `startswith` used to build `in`. -/
def charsStart : List Char → List Char → Bool
  | _, [] => true
  | [], _ :: _ => false
  | c :: cs, p :: ps => c == p && charsStart cs ps

/-- Does the char list contain `pat` as a contiguous run? -/
def charsIn (pat : List Char) : List Char → Bool
  | [] => pat.isEmpty
  | c :: rest => charsStart (c :: rest) pat || charsIn pat rest

/-- Python `pat in s` on strings (contiguous substring). -/
def pyInStr (pat s : String) : Bool := charsIn pat.data s.data

/-- Python `s.lower()` (character-wise lowering, written over the char
list so that it evaluates by kernel reduction). -/
def strLower (s : String) : String := ⟨s.data.map Char.toLower⟩

/-- The title test of `get_company_ceo`:
`'ceo' in title or 'chief executive' in title` after
`officer.get('title', '').lower()`. -/
def titleMatches (title : Option String) : Bool :=
  let t := strLower (title.getD "")
  pyInStr "ceo" t || pyInStr "chief executive" t

/-- The inner `for officer in officers` loop: on the first matching
entry it sets `ceo = officer.get('name')` and breaks; otherwise the
incoming `ceo` survives. -/
def scanEntries (ceo : Option String) : List OfficerEntry → Option String
  | [] => ceo
  | .notDict :: rest => scanEntries ceo rest
  | .dict t nm :: rest => if titleMatches t then nm else scanEntries ceo rest

/-- One pass of the outer `for field in [...]` loop body: skip when the
key is absent or the value is not a list. -/
def scanField (ceo : Option String) : Option OfficersField → Option String
  | none => ceo
  | some .notList => ceo
  | some (.list es) => scanEntries ceo es

/-- Python truthiness of an optional string (`None` and `''` falsy),
used by the `if not ceo` fallback check. -/
def pyFalsyS : Option String → Bool
  | none => true
  | some s => s == ""

/-- `StockInfoAgent.get_company_ceo`: scan `companyOfficers` then
`officers` (the inner `break` leaves the outer loop running, so the
second field is scanned with the first field's result as the incoming
value), then the dead `longBusinessSummary` fallback that re-sets a
falsy result to `None`. -/
def get_company_ceo (fetch : Except Unit CompanyInfo) : Option String :=
  match fetch with
  | .error _ => none
  | .ok info =>
    let c := scanField (scanField none info.companyOfficers) info.officers
    if pyFalsyS c && info.longBusinessSummary then none else c

/-! ### Transcript predicates for the round-trip invariant -/

/-- Is a message not a capability-result turn? -/
def notTool : Msg → Bool
  | .tool _ _ _ => false
  | _ => true

/-- Is a message neither a capability-result turn nor an assistant turn
holding an invocation? -/
def neutralMsg : Msg → Bool
  | .user _ => true
  | .assistant _ [] => true
  | _ => false

/-- `resultOK prev cur`: if `cur` is a capability-result turn, its
immediate predecessor `prev` must be an assistant turn holding exactly
one invocation, with an id matching the result's `tool_call_id`. -/
def resultOK (prev cur : Msg) : Bool :=
  match cur with
  | .tool id _ _ =>
    match prev with
    | .assistant _ [tc] => tc.id == id
    | _ => false
  | _ => true

/-- Check `resultOK` along a transcript, `prev` being the last message
already seen. -/
def rmFrom (prev : Msg) : List Msg → Bool
  | [] => true
  | cur :: rest => resultOK prev cur && rmFrom cur rest

/-- Every capability-result turn in the transcript is immediately
preceded by an assistant turn holding exactly its invocation. -/
def resultsMatched : List Msg → Bool
  | [] => true
  | m :: rest => notTool m && rmFrom m rest

/-- The invocation a message leaves awaiting its result (the head tool
call of an assistant turn that holds one). -/
def pendingOf : Msg → Option ToolCall
  | .assistant _ (tc :: _) => some tc
  | _ => none

/-- Walk the transcript carrying the invocation (if any) left pending by
the previous message: a pending invocation must be answered by the very
next message, a matching capability-result turn, and none may be left
pending at the end. -/
def iaFrom (pending : Option ToolCall) : List Msg → Bool
  | [] => pending.isNone
  | cur :: rest =>
    (match pending, cur with
     | some tc, .tool id _ _ => tc.id == id
     | some _, _ => false
     | none, _ => true) && iaFrom (pendingOf cur) rest

/-- Every assistant turn holding an invocation is immediately followed
by a capability-result turn whose `tool_call_id` matches it. -/
def invocationsAnswered (l : List Msg) : Bool := iaFrom none l

/-- The invocation ids carried by assistant turns, in transcript order. -/
def invIds : List Msg → List String
  | [] => []
  | .assistant _ tcs :: rest => tcs.map ToolCall.id ++ invIds rest
  | _ :: rest => invIds rest

/-- The `tool_call_id`s of capability-result turns, in transcript order. -/
def resultIds : List Msg → List String
  | [] => []
  | .tool id _ _ :: rest => id :: resultIds rest
  | _ :: rest => resultIds rest

/-- The ids of the tool calls a script of model responses would have the
loop execute (the first tool call of each response that has one). -/
def scriptIds : List ModelResponse → List String
  | [] => []
  | r :: rest =>
    (match r.tool_calls with
     | [] => []
     | tc :: _ => [tc.id]) ++ scriptIds rest

/-! ### Shape of a completed dispatch loop run -/

theorem dispatchLoop_structure (resolve : String → Option Handler) :
    ∀ (script : List ModelResponse) (hist : List Msg) (ans : Option String)
      (hist' : List Msg) (n : Nat),
      dispatchLoop resolve script hist = some (ans, hist', n) →
      ∃ processed fr rest,
        script = processed ++ fr :: rest ∧ fr.tool_calls = [] ∧ ans = fr.content ∧
        n = processed.length + 1 ∧
        hist' = hist ++ blocksOf resolve processed ++ [Msg.assistant fr.content []] := by
  intro script
  induction script with
  | nil => intro hist ans hist' n h; simp [dispatchLoop] at h
  | cons r rest ih =>
    intro hist ans hist' n h
    obtain ⟨c, tcs⟩ := r
    cases tcs with
    | nil =>
      refine ⟨[], ⟨c, []⟩, rest, by simp, rfl, ?_, ?_, ?_⟩ <;>
        simp [dispatchLoop, blocksOf] at h ⊢ <;> tauto
    | cons tc more =>
      rw [dispatchLoop] at h
      rcases hrec : dispatchLoop resolve rest
          (hist ++ [Msg.assistant none [tc],
            Msg.tool tc.id tc.name (recordContent (execute_tool resolve tc.name tc.args))]) with
        _ | ⟨a, h2, m⟩
      · rw [hrec] at h; exact absurd h (by simp)
      · rw [hrec] at h
        simp only [Option.some.injEq, Prod.mk.injEq] at h
        obtain ⟨ha, hh, hn⟩ := h
        obtain ⟨procs, fr, rest', hsplit, hfr, hans, hm, hhist⟩ := ih _ _ _ _ hrec
        refine ⟨⟨c, tc :: more⟩ :: procs, fr, rest', by rw [hsplit]; rfl, hfr,
          ha ▸ hans, ?_, ?_⟩
        · subst hn hm; simp
        · subst hh
          rw [hhist]
          simp only [blocksOf, iterBlock, List.append_assoc]

/-! ### Preservation lemmas for the transcript predicates -/

theorem rmFrom_append_single (m : Msg) (hm : notTool m = true) :
    ∀ (l : List Msg) (prev : Msg), rmFrom prev (l ++ [m]) = rmFrom prev l := by
  intro l
  induction l with
  | nil =>
    intro prev
    have : resultOK prev m = true := by
      cases m <;> simp_all [resultOK, notTool]
    simp [rmFrom, this]
  | cons a l ih =>
    intro prev
    simp [rmFrom, ih a]

theorem resultsMatched_append_single (l : List Msg) (m : Msg) (hm : notTool m = true) :
    resultsMatched (l ++ [m]) = resultsMatched l := by
  cases l with
  | nil => simp [resultsMatched, rmFrom, hm]
  | cons a l => simp [resultsMatched, rmFrom_append_single m hm l a]

theorem rmFrom_append_block (tc : ToolCall) (nm ct : String) :
    ∀ (l : List Msg) (prev : Msg),
      rmFrom prev (l ++ [Msg.assistant none [tc], Msg.tool tc.id nm ct]) = rmFrom prev l := by
  intro l
  induction l with
  | nil =>
    intro prev
    have h1 : resultOK prev (Msg.assistant none [tc]) = true := by simp [resultOK]
    have h2 : resultOK (Msg.assistant none [tc]) (Msg.tool tc.id nm ct) = true := by
      simp [resultOK]
    simp [rmFrom, h1, h2]
  | cons a l ih =>
    intro prev
    simp [rmFrom, ih a]

theorem resultsMatched_append_block (l : List Msg) (tc : ToolCall) (nm ct : String) :
    resultsMatched (l ++ [Msg.assistant none [tc], Msg.tool tc.id nm ct]) =
      resultsMatched l := by
  cases l with
  | nil => simp [resultsMatched, notTool, rmFrom, resultOK]
  | cons a l => simp [resultsMatched, rmFrom_append_block tc nm ct l a]

theorem resultsMatched_blocks (resolve : String → Option Handler) :
    ∀ (procs : List ModelResponse) (base : List Msg),
      resultsMatched base = true →
      resultsMatched (base ++ blocksOf resolve procs) = true := by
  intro procs
  induction procs with
  | nil => intro base hb; simpa [blocksOf]
  | cons r procs ih =>
    intro base hb
    obtain ⟨c, tcs⟩ := r
    cases tcs with
    | nil =>
      have : iterBlock resolve ⟨c, []⟩ = [] := by simp [iterBlock]
      simpa [blocksOf, this] using ih base hb
    | cons tc more =>
      have hblk : iterBlock resolve ⟨c, tc :: more⟩ =
          [Msg.assistant none [tc],
           Msg.tool tc.id tc.name (recordContent (execute_tool resolve tc.name tc.args))] := by
        simp [iterBlock]
      have hbase : resultsMatched (base ++ iterBlock resolve ⟨c, tc :: more⟩) = true := by
        rw [hblk, resultsMatched_append_block]; exact hb
      have := ih (base ++ iterBlock resolve ⟨c, tc :: more⟩) hbase
      simpa [blocksOf, List.append_assoc] using this

theorem iaFrom_append_single (m : Msg) (hm : neutralMsg m = true) :
    ∀ (l : List Msg) (pending : Option ToolCall),
      iaFrom pending (l ++ [m]) = iaFrom pending l := by
  intro l
  induction l with
  | nil =>
    intro pending
    have hpend : pendingOf m = none := by
      cases m with
      | user c => rfl
      | assistant c tcs => cases tcs <;> simp_all [neutralMsg, pendingOf]
      | tool a b c => simp [neutralMsg] at hm
    cases pending with
    | none => simp [iaFrom, hpend]
    | some tc =>
      cases m with
      | user c => simp [iaFrom, pendingOf]
      | assistant c tcs => simp [iaFrom, hpend]
      | tool a b c => simp [neutralMsg] at hm
  | cons a l ih =>
    intro pending
    simp [iaFrom, ih (pendingOf a)]

theorem invocationsAnswered_append_single (l : List Msg) (m : Msg)
    (hm : neutralMsg m = true) :
    invocationsAnswered (l ++ [m]) = invocationsAnswered l :=
  iaFrom_append_single m hm l none

theorem iaFrom_append_block (tc : ToolCall) (nm ct : String) :
    ∀ (l : List Msg) (pending : Option ToolCall),
      iaFrom pending (l ++ [Msg.assistant none [tc], Msg.tool tc.id nm ct]) =
        iaFrom pending l := by
  intro l
  induction l with
  | nil =>
    intro pending
    cases pending with
    | none => simp [iaFrom, pendingOf]
    | some tc' => simp [iaFrom, pendingOf]
  | cons a l ih =>
    intro pending
    simp [iaFrom, ih (pendingOf a)]

theorem invocationsAnswered_append_block (l : List Msg) (tc : ToolCall) (nm ct : String) :
    invocationsAnswered (l ++ [Msg.assistant none [tc], Msg.tool tc.id nm ct]) =
      invocationsAnswered l :=
  iaFrom_append_block tc nm ct l none

theorem invocationsAnswered_blocks (resolve : String → Option Handler) :
    ∀ (procs : List ModelResponse) (base : List Msg),
      invocationsAnswered base = true →
      invocationsAnswered (base ++ blocksOf resolve procs) = true := by
  intro procs
  induction procs with
  | nil => intro base hb; simpa [blocksOf]
  | cons r procs ih =>
    intro base hb
    obtain ⟨c, tcs⟩ := r
    cases tcs with
    | nil =>
      have : iterBlock resolve ⟨c, []⟩ = [] := by simp [iterBlock]
      simpa [blocksOf, this] using ih base hb
    | cons tc more =>
      have hblk : iterBlock resolve ⟨c, tc :: more⟩ =
          [Msg.assistant none [tc],
           Msg.tool tc.id tc.name (recordContent (execute_tool resolve tc.name tc.args))] := by
        simp [iterBlock]
      have hbase : invocationsAnswered (base ++ iterBlock resolve ⟨c, tc :: more⟩) = true := by
        rw [hblk, invocationsAnswered_append_block]; exact hb
      have := ih (base ++ iterBlock resolve ⟨c, tc :: more⟩) hbase
      simpa [blocksOf, List.append_assoc] using this

theorem invIds_append : ∀ (l1 l2 : List Msg), invIds (l1 ++ l2) = invIds l1 ++ invIds l2 := by
  intro l1 l2
  induction l1 with
  | nil => simp [invIds]
  | cons a l ih => cases a <;> simp [invIds, ih]

theorem resultIds_append :
    ∀ (l1 l2 : List Msg), resultIds (l1 ++ l2) = resultIds l1 ++ resultIds l2 := by
  intro l1 l2
  induction l1 with
  | nil => simp [resultIds]
  | cons a l ih => cases a <;> simp [resultIds, ih]

theorem scriptIds_append :
    ∀ (l1 l2 : List ModelResponse), scriptIds (l1 ++ l2) = scriptIds l1 ++ scriptIds l2 := by
  intro l1 l2
  induction l1 with
  | nil => simp [scriptIds]
  | cons a l ih => simp [scriptIds, ih]

theorem invIds_blocksOf (resolve : String → Option Handler) :
    ∀ (procs : List ModelResponse), invIds (blocksOf resolve procs) = scriptIds procs := by
  intro procs
  induction procs with
  | nil => simp [blocksOf, invIds, scriptIds]
  | cons r procs ih =>
    obtain ⟨c, tcs⟩ := r
    cases tcs with
    | nil => simpa [blocksOf, iterBlock, scriptIds] using ih
    | cons tc more =>
      simp [blocksOf, iterBlock, scriptIds, invIds_append, invIds, ih]

theorem resultIds_blocksOf (resolve : String → Option Handler) :
    ∀ (procs : List ModelResponse), resultIds (blocksOf resolve procs) = scriptIds procs := by
  intro procs
  induction procs with
  | nil => simp [blocksOf, resultIds, scriptIds]
  | cons r procs ih =>
    obtain ⟨c, tcs⟩ := r
    cases tcs with
    | nil => simpa [blocksOf, iterBlock, scriptIds] using ih
    | cons tc more =>
      simp [blocksOf, iterBlock, scriptIds, resultIds_append, resultIds, ih]

/-- One tool-call iteration of the loop: append the assistant turn
holding the invocation and the result turn, then continue with the rest
of the script (the iteration counter grows by one). -/
theorem dispatchLoop_cons_toolcall (resolve : String → Option Handler)
    (c : Option String) (tc : ToolCall) (more : List ToolCall)
    (rest : List ModelResponse) (hist : List Msg) :
    dispatchLoop resolve (⟨c, tc :: more⟩ :: rest) hist =
      (dispatchLoop resolve rest
        (hist ++ [Msg.assistant none [tc],
          Msg.tool tc.id tc.name (recordContent (execute_tool resolve tc.name tc.args))])).map
        (fun p => (p.1, p.2.1, p.2.2 + 1)) := by
  rw [dispatchLoop]
  rcases dispatchLoop resolve rest
      (hist ++ [Msg.assistant none [tc],
        Msg.tool tc.id tc.name (recordContent (execute_tool resolve tc.name tc.args))]) with
    _ | ⟨a, h2, m⟩ <;> simp

/-! ## Claims -/

/-- C2: a model response with plain text and no tool calls ends the
dispatch loop in exactly that iteration, appends an assistant turn with
that text, and returns the text; in particular, if the first response
after the user query is plain text, `process_user_query` runs exactly
one iteration. -/
theorem claim_C2_plain_text_terminates (resolve : String → Option Handler)
    (t : String) (rest : List ModelResponse) (hist hist0 : List Msg) (q : String) :
    dispatchLoop resolve (⟨some t, []⟩ :: rest) hist =
      some (some t, hist ++ [Msg.assistant (some t) []], 1)
    ∧ process_user_query resolve (⟨some t, []⟩ :: rest) hist0 q =
      some (some t, hist0 ++ [Msg.user q, Msg.assistant (some t) []], 1) := by
  refine ⟨rfl, ?_⟩
  simp [process_user_query, dispatchLoop]

/-- C3: a tool call whose name does not resolve to a handler makes
`execute_tool` return `none`; the loop then records the sentinel
`"No result found"` in the result turn and continues with the next model
call instead of terminating or failing. -/
theorem claim_C3_unknown_capability (resolve : String → Option Handler)
    (tc : ToolCall) (h : resolve tc.name = none) :
    execute_tool resolve tc.name tc.args = none
    ∧ ∀ (c : Option String) (more : List ToolCall) (rest : List ModelResponse)
        (hist : List Msg),
        dispatchLoop resolve (⟨c, tc :: more⟩ :: rest) hist =
          (dispatchLoop resolve rest
            (hist ++ [Msg.assistant none [tc],
              Msg.tool tc.id tc.name "No result found"])).map
            (fun p => (p.1, p.2.1, p.2.2 + 1)) := by
  have hexec : execute_tool resolve tc.name tc.args = none := by
    simp [execute_tool, h]
  refine ⟨hexec, ?_⟩
  intro c more rest hist
  have := dispatchLoop_cons_toolcall resolve c tc more rest hist
  rwa [hexec] at this

/-- Everything-unknown registry, for the C3 witness. -/
def resolveNone : String → Option Handler := fun _ => none

theorem claim_C3_witness :
    execute_tool resolveNone "get_weather" [] = none
    ∧ dispatchLoop resolveNone [⟨none, [⟨"call_9", "get_weather", []⟩]⟩] [] =
        (dispatchLoop resolveNone []
          ([] ++ [Msg.assistant none [⟨"call_9", "get_weather", []⟩],
            Msg.tool "call_9" "get_weather" "No result found"])).map
          (fun p => (p.1, p.2.1, p.2.2 + 1)) := by
  have h := claim_C3_unknown_capability resolveNone ⟨"call_9", "get_weather", []⟩ rfl
  exact ⟨h.1, h.2 none [] [] []⟩

/-- C9: a resolved handler is called with exactly the first value of the
argument mapping (further entries are ignored), and with no argument at
all when the mapping is empty. -/
theorem claim_C9_argument_passing (resolve : String → Option Handler)
    (name : String) (f : Handler) (h : resolve name = some f) :
    execute_tool resolve name [] = f.call0
    ∧ ∀ (k : String) (v : PyVal) (rest : List (String × PyVal)),
        execute_tool resolve name ((k, v) :: rest) = f.call1 v := by
  refine ⟨?_, ?_⟩ <;> simp [execute_tool, h]

/-- Echo handler and singleton registry, for the C9 witness. -/
def echoHandler : Handler := ⟨some (.str "noargs"), fun v => some v⟩

def resolveEcho : String → Option Handler :=
  fun nm => if nm = "ask_user_for_clarification" then some echoHandler else none

theorem claim_C9_witness :
    execute_tool resolveEcho "ask_user_for_clarification" [] = some (.str "noargs")
    ∧ execute_tool resolveEcho "ask_user_for_clarification"
        [("question_to_user", .str "Which ticker?"), ("extra", .int 7)] =
        some (.str "Which ticker?") := by
  have h := claim_C9_argument_passing resolveEcho "ask_user_for_clarification" echoHandler rfl
  exact ⟨h.1, h.2 "question_to_user" (.str "Which ticker?") [("extra", .int 7)]⟩

/-- C10: the content recorded in a result turn is produced by
`recordContent`: the sentinel `"No result found"` exactly when the
handler's result is `None`, and the `str`-coercion of the value,
verbatim, otherwise — in particular the falsy non-`None` results `""`
and `0` are recorded as `""` and `"0"`, not as the sentinel. -/
theorem claim_C10_sentinel_exactly_on_none (resolve : String → Option Handler) :
    (∀ (c : Option String) (tc : ToolCall) (more : List ToolCall)
        (rest : List ModelResponse) (hist : List Msg),
        dispatchLoop resolve (⟨c, tc :: more⟩ :: rest) hist =
          (dispatchLoop resolve rest
            (hist ++ [Msg.assistant none [tc],
              Msg.tool tc.id tc.name
                (recordContent (execute_tool resolve tc.name tc.args))])).map
            (fun p => (p.1, p.2.1, p.2.2 + 1)))
    ∧ recordContent none = "No result found"
    ∧ (∀ v : PyVal, recordContent (some v) = pyToString v)
    ∧ recordContent (some (.str "")) = ""
    ∧ recordContent (some (.int 0)) = "0" := by
  refine ⟨fun c tc more rest hist => dispatchLoop_cons_toolcall resolve c tc more rest hist,
    rfl, fun v => rfl, rfl, rfl⟩

/-- C1: for a completed `process_user_query` run, the final transcript
is the prior history plus the user turn, followed per executed tool call
by an assistant turn holding exactly that invocation immediately
followed by its single result turn (all before the next model call), and
closed by the final assistant answer; the prior transcript survives as a
prefix (nothing removed or reordered), every result turn is immediately
preceded by its unique matching invocation, every invocation is answered
exactly once, and invocation ids stay pairwise distinct. -/
theorem claim_C1_roundtrip (resolve : String → Option Handler)
    (script : List ModelResponse) (hist0 : List Msg) (q : String)
    (ans : Option String) (hist' : List Msg) (n : Nat)
    (hrun : process_user_query resolve script hist0 q = some (ans, hist', n))
    (h0m : resultsMatched hist0 = true)
    (h0a : invocationsAnswered hist0 = true)
    (h0c : ∀ X, (resultIds hist0).count X = (invIds hist0).count X)
    (hnd : (invIds hist0 ++ scriptIds script).Nodup) :
    (∃ processed fr rest,
        script = processed ++ fr :: rest ∧ fr.tool_calls = [] ∧
        hist' = (hist0 ++ [Msg.user q]) ++ blocksOf resolve processed ++
          [Msg.assistant fr.content []])
    ∧ (∃ tail, hist' = (hist0 ++ [Msg.user q]) ++ tail)
    ∧ resultsMatched hist' = true
    ∧ invocationsAnswered hist' = true
    ∧ (∀ X, (resultIds hist').count X = (invIds hist').count X)
    ∧ (invIds hist').Nodup := by
  obtain ⟨processed, fr, rest, hsplit, hfr, hans, hn, hhist⟩ :=
    dispatchLoop_structure resolve script (hist0 ++ [Msg.user q]) ans hist' n hrun
  have hbase_m : resultsMatched (hist0 ++ [Msg.user q]) = true := by
    rw [resultsMatched_append_single hist0 (Msg.user q) rfl]; exact h0m
  have hbase_a : invocationsAnswered (hist0 ++ [Msg.user q]) = true := by
    rw [invocationsAnswered_append_single hist0 (Msg.user q) rfl]; exact h0a
  have hres : resultIds hist' = resultIds hist0 ++ scriptIds processed := by
    rw [hhist]
    simp [resultIds_append, resultIds_blocksOf, resultIds]
  have hinv : invIds hist' = invIds hist0 ++ scriptIds processed := by
    rw [hhist]
    simp [invIds_append, invIds_blocksOf, invIds]
  refine ⟨⟨processed, fr, rest, hsplit, hfr, by rw [hhist]⟩,
    ⟨blocksOf resolve processed ++ [Msg.assistant fr.content []], by
      rw [hhist]; simp [List.append_assoc]⟩, ?_, ?_, ?_, ?_⟩
  · rw [hhist,
      resultsMatched_append_single ((hist0 ++ [Msg.user q]) ++ blocksOf resolve processed)
        (Msg.assistant fr.content []) rfl]
    exact resultsMatched_blocks resolve processed _ hbase_m
  · rw [hhist,
      invocationsAnswered_append_single ((hist0 ++ [Msg.user q]) ++ blocksOf resolve processed)
        (Msg.assistant fr.content []) rfl]
    exact invocationsAnswered_blocks resolve processed _ hbase_a
  · intro X
    rw [hres, hinv]
    simp [List.count_append, h0c X]
  · rw [hinv]
    rw [hsplit, scriptIds_append] at hnd
    have hsub : List.Sublist (invIds hist0 ++ scriptIds processed)
        (invIds hist0 ++ (scriptIds processed ++ scriptIds (fr :: rest))) :=
      List.Sublist.append_left (List.sublist_append_left _ _) _
    exact hnd.sublist hsub

/-- Concrete one-tool-call session data for the C1 witness. -/
def tcW : ToolCall := ⟨"call_1", "get_stock_price", [("ticker_symbol", .str "AAPL")]⟩

def resolveW : String → Option Handler :=
  fun nm => if nm = "get_stock_price" then
    some ⟨none, fun _ => some (.str "136.36 EUR")⟩ else none

def scriptW : List ModelResponse := [⟨none, [tcW]⟩, ⟨some "Done", []⟩]

def histW : List Msg :=
  [Msg.user "price?", Msg.assistant none [tcW],
   Msg.tool "call_1" "get_stock_price" "136.36 EUR", Msg.assistant (some "Done") []]

theorem claim_C1_witness :
    resultsMatched histW = true
    ∧ invocationsAnswered histW = true
    ∧ (invIds histW).Nodup
    ∧ List.count "call_1" (resultIds histW) = List.count "call_1" (invIds histW) := by
  have h := claim_C1_roundtrip resolveW scriptW [] "price?" (some "Done") histW 2
    (by decide) (by decide) (by decide) (fun X => rfl) (by decide)
  exact ⟨h.2.2.1, h.2.2.2.1, h.2.2.2.2.2, h.2.2.2.2.1 "call_1"⟩

/-- Scenario A inputs: `AAPL` quoted at 150 USD, `EURUSD=X` at 1.10. -/
def infoAAPL : StockInfo := ⟨some 150, none, some "USD"⟩

def fxUsd : String → Except Unit FxInfo :=
  fun s => if s = "EURUSD=X" then .ok ⟨some (mkRat 11 10), none, none⟩ else .error ()

/-- C4: with reported currency USD, price 150 and `EURUSD=X` rate 1.10
(USD per 1 EUR), `get_stock_price` returns `"136.36 EUR"`; in general,
for a non-EUR currency with a truthy rate found, the result is the
price divided by the `EUR{currency}=X` rate, formatted to two decimals
with `" EUR"` appended. -/
theorem claim_C4_eur_conversion :
    get_stock_price (.ok infoAAPL) fxUsd = some "136.36 EUR"
    ∧ ∀ (info : StockInfo) (fx : String → Except Unit FxInfo) (fxi : FxInfo) (p r : ℚ),
        pyOrQ info.currentPrice info.regularMarketPrice = some p →
        info.currency.getD "USD" ≠ "EUR" →
        fx ("EUR" ++ info.currency.getD "USD" ++ "=X") = .ok fxi →
        pyOrQ (pyOrQ fxi.regularMarketPrice fxi.previousClose) fxi.currentPrice = some r →
        r ≠ 0 →
        get_stock_price (.ok info) fx = some (format2 (p / r) ++ " EUR") := by
  constructor
  · decide
  · intro info fx fxi p r hp hc hfx hr hr0
    rw [← ratDiv_eq]
    simp only [get_stock_price, getStockPriceTr, hp, hfx, hr, hc, hr0, if_neg, if_false]

theorem claim_C4_witness :
    get_stock_price (.ok infoAAPL) fxUsd = some (format2 ((150 : ℚ) / mkRat 11 10) ++ " EUR") := by
  exact claim_C4_eur_conversion.2 infoAAPL fxUsd ⟨some (mkRat 11 10), none, none⟩ 150
    (mkRat 11 10) (by decide) (by decide) rfl (by decide) (by decide)

/-- C5: a price already reported in EUR is formatted and returned
directly — the traced run shows no forex lookup at all, and the result
does not depend on the forex collaborator; Scenario B: 200 EUR yields
`"200.00 EUR"`. -/
theorem claim_C5_eur_identity :
    (∀ (info : StockInfo) (p : ℚ) (fx : String → Except Unit FxInfo),
        pyOrQ info.currentPrice info.regularMarketPrice = some p →
        info.currency = some "EUR" →
        getStockPriceTr (.ok info) fx = (some (format2 p ++ " EUR"), []))
    ∧ get_stock_price (.ok ⟨some 200, none, some "EUR"⟩) (fun _ => .error ()) =
        some "200.00 EUR" := by
  constructor
  · intro info p fx hp hc
    simp only [getStockPriceTr, hp, hc, Option.getD_some, if_pos]
  · decide

theorem claim_C5_witness :
    getStockPriceTr (.ok ⟨some 200, none, some "EUR"⟩) (fun _ => .error ()) =
      (some "200.00 EUR", []) := by
  have h := claim_C5_eur_identity.1 ⟨some 200, none, some "EUR"⟩ 200 (fun _ => .error ())
    (by decide) rfl
  rw [h]
  decide

/-- C6: when a price and a non-EUR currency are reported but the forex
lookup raises, or returns no truthy rate, the original price is returned
tagged with its native currency — never an absent result. -/
theorem claim_C6_fx_failure_keeps_native (info : StockInfo) (p : ℚ)
    (fx : String → Except Unit FxInfo)
    (hp : pyOrQ info.currentPrice info.regularMarketPrice = some p)
    (hc : info.currency.getD "USD" ≠ "EUR")
    (hfail : fx ("EUR" ++ info.currency.getD "USD" ++ "=X") = .error () ∨
      ∃ fxi, fx ("EUR" ++ info.currency.getD "USD" ++ "=X") = .ok fxi ∧
        (pyOrQ (pyOrQ fxi.regularMarketPrice fxi.previousClose) fxi.currentPrice = none ∨
         pyOrQ (pyOrQ fxi.regularMarketPrice fxi.previousClose) fxi.currentPrice = some 0)) :
    get_stock_price (.ok info) fx = some (format2 p ++ " " ++ info.currency.getD "USD") := by
  rcases hfail with herr | ⟨fxi, hok, hnone | hzero⟩
  · simp only [get_stock_price, getStockPriceTr, hp, hc, herr, if_neg, if_false]
  · simp only [get_stock_price, getStockPriceTr, hp, hc, hok, hnone, if_neg, if_false]
  · simp only [get_stock_price, getStockPriceTr, hp, hc, hok, hzero, if_neg, if_false,
      if_pos, if_true]

theorem claim_C6_witness :
    get_stock_price (.ok ⟨some 100, none, some "GBP"⟩) (fun _ => .error ()) =
      some "100.00 GBP" := by
  have h := claim_C6_fx_failure_keeps_native ⟨some 100, none, some "GBP"⟩ 100
    (fun _ => .error ()) (by decide) (by decide) (Or.inl rfl)
  rw [h]
  decide

/-- C7: when the provider reports neither `currentPrice` nor
`regularMarketPrice`, `get_stock_price` returns an absent result — not
a formatted zero (the model is total, so no exception either). -/
theorem claim_C7_missing_price_absent (info : StockInfo)
    (h1 : info.currentPrice = none) (h2 : info.regularMarketPrice = none) :
    ∀ fx, get_stock_price (.ok info) fx = none := by
  intro fx
  simp only [get_stock_price, getStockPriceTr, h1, h2, pyOrQ]

theorem claim_C7_witness :
    get_stock_price (.ok ⟨none, none, some "USD"⟩) (fun _ => .error ()) = none :=
  claim_C7_missing_price_absent ⟨none, none, some "USD"⟩ rfl rfl (fun _ => .error ())

/-! ### C8: first-match semantics of the officer scan -/

/-- The officer entries stored under one key (empty when the key is
absent or the value is not a list). -/
def entriesOf : Option OfficersField → List OfficerEntry
  | some (.list es) => es
  | _ => []

/-- The name of the first matching entry of a list, `none` when no
entry matches. -/
def specScanFirst : List OfficerEntry → Option String
  | [] => none
  | .notDict :: rest => specScanFirst rest
  | .dict t nm :: rest => if titleMatches t then nm else specScanFirst rest

/-- The claim's reading of the officer lookup, following the spec's
words: scan the company metadata's officer entries (`companyOfficers`
then `officers`, as one sequence) and return the name of the first
entry whose title matches an executive-leadership label. -/
def specCeoFirstMatch (info : CompanyInfo) : Option String :=
  specScanFirst (entriesOf info.companyOfficers ++ entriesOf info.officers)

/-- Metadata carrying a matching officer in both scanned keys: the code
returns the `officers` match ("Bob"), not the first matching entry
("Alice" from `companyOfficers`). -/
def infoTwoFields : CompanyInfo :=
  ⟨some (.list [.dict (some "Chief Executive Officer") (some "Alice")]),
   some (.list [.dict (some "Chief Executive Officer") (some "Bob")]), false⟩

theorem claim_C8_counterexample :
    get_company_ceo (.ok infoTwoFields) = some "Bob"
    ∧ specCeoFirstMatch infoTwoFields = some "Alice"
    ∧ get_company_ceo (.ok infoTwoFields) ≠ specCeoFirstMatch infoTwoFields := by
  refine ⟨by decide, by decide, by decide⟩

/-- First matching entry of an entry list: `some name` when a match
exists (its `name` value, itself optional), `none` otherwise. -/
def firstMatchEntry : List OfficerEntry → Option (Option String)
  | [] => none
  | .notDict :: rest => firstMatchEntry rest
  | .dict t nm :: rest => if titleMatches t then some nm else firstMatchEntry rest

/-- The first matching entry of an officers key, if any. -/
def fieldFirstMatch : Option OfficersField → Option (Option String)
  | some (.list es) => firstMatchEntry es
  | _ => none

theorem scanEntries_eq_firstMatch (es : List OfficerEntry) :
    ∀ ceo, scanEntries ceo es = (firstMatchEntry es).getD ceo := by
  induction es with
  | nil => intro ceo; rfl
  | cons e rest ih =>
    intro ceo
    cases e with
    | notDict => simpa [scanEntries, firstMatchEntry] using ih ceo
    | dict t nm =>
      by_cases h : titleMatches t = true
      · simp [scanEntries, firstMatchEntry, h]
      · simp only [Bool.not_eq_true] at h
        simp [scanEntries, firstMatchEntry, h, ih ceo]

theorem scanField_eq_firstMatch (fld : Option OfficersField) (ceo : Option String) :
    scanField ceo fld = (fieldFirstMatch fld).getD ceo := by
  match fld with
  | none => rfl
  | some .notList => rfl
  | some (.list es) =>
    simpa [scanField, fieldFirstMatch] using scanEntries_eq_firstMatch es ceo

/-- C8 (amended): the officer scan runs over `companyOfficers` and then
`officers`, and a match found in the later key overrides one found in
the earlier key — the returned name is the first matching entry of the
last key that contains a match (so it is the first matching entry only
when at most one key matches), absent if no entry matches; stated for
metadata without a `longBusinessSummary` key, whose presence would
additionally null a falsy result.  Scenario D (a single officer list
with title "Chief Executive Officer" and name "Jane Doe" yields
`"Jane Doe"`) holds. -/
theorem claim_C8_amended (info : CompanyInfo)
    (hs : info.longBusinessSummary = false) :
    get_company_ceo (.ok info) =
      (fieldFirstMatch info.officers).getD ((fieldFirstMatch info.companyOfficers).getD none)
    ∧ get_company_ceo
        (.ok ⟨some (.list [.dict (some "Chief Executive Officer") (some "Jane Doe")]),
          none, true⟩) = some "Jane Doe" := by
  constructor
  · simp only [get_company_ceo, hs, Bool.and_false, Bool.false_eq_true, if_false,
      scanField_eq_firstMatch]
  · decide

theorem claim_C8_witness :
    get_company_ceo (.ok infoTwoFields) =
      (fieldFirstMatch infoTwoFields.officers).getD
        ((fieldFirstMatch infoTwoFields.companyOfficers).getD none)
    ∧ get_company_ceo
        (.ok ⟨some (.list [.dict (some "Chief Executive Officer") (some "Jane Doe")]),
          none, true⟩) = some "Jane Doe" :=
  claim_C8_amended infoTwoFields rfl

end StockAgent

